import Mathlib

/-!
Verification development for the `dag` Go package (github.com/TumTum23/dag)
and its `dsync` receive session.

The Go sources are embedded shallowly:

* `Manifest`, `NewCompletion` (and its scan loop), `RootCID` come from
  `dag.go`.
* The recursive manifest builder (`mstate.makeManifest` / `mstate.addNode`)
  is embedded as the fuel-indexed interpreter `addNode`; the Go recursion
  terminates only because the visited map grows, and a fuel parameter makes
  that termination argument explicit while keeping the definition
  structurally recursive and executable.
* Go maps (`weights`, `sizes`) are embedded as association lists with a
  first-match lookup, which matches Go map lookup because keys are inserted
  at most once.
* `session.ReceiveBlock` comes from `dsync/session.go`; the block-write
  capability `bapi.Put` is a function parameter returning the derived
  content identifier.
* The CBOR serialization of manifests delegates in Go to the external
  `ugorji/go/codec` library; it is modelled here byte-for-byte after the
  CBOR wire format that library emits for the `Manifest` struct (a
  two-entry map with text keys, definite-length arrays, minimal-width
  integer heads).
-/

set_option maxHeartbeats 1600000

/-- `Manifest` from `dag.go`: a flat list of node identifiers plus a list of
`(fromIndex, toIndex)` links.  Go's `[2]int` entries are embedded as
`Int × Int`. -/
structure Manifest where
  Links : List (Int × Int)
  Nodes : List String
deriving DecidableEq

/-- `Completion` from `dag.go`: per-node progress values (Go `[]uint16`,
only ever holding 0 or 100). -/
abbrev Completion := List Nat

/-- The loop body of `NewCompletion` in `dag.go`: iterate over the reference
nodes with a cursor `m` into `missing`; on a match write 0 and advance the
cursor, otherwise write 100. -/
def completionLoop (missing : List String) : List String → Nat → List Nat
  | [], _ => []
  | hash :: rest, m =>
    if hm : m < missing.length then
      if hash = missing[m] then 0 :: completionLoop missing rest (m + 1)
      else 100 :: completionLoop missing rest m
    else 100 :: completionLoop missing rest m

/-- `NewCompletion` from `dag.go`. -/
def NewCompletion (mfst missing : Manifest) : Completion :=
  completionLoop missing.Nodes mfst.Nodes 0

/-- Modelled from the spec's words for `BuildCompletion` (section 4.3): a
single forward scan over the reference nodes, consuming the missing list
from the front; on a match mark 0 and advance, on a mismatch mark 100.
Refinement target for the scan claim. -/
def completionScanSpec : List String → List String → List Nat
  | [], _ => []
  | r :: rs, m :: ms =>
    if r = m then 0 :: completionScanSpec rs ms
    else 100 :: completionScanSpec rs (m :: ms)
  | _ :: rs, [] => 100 :: completionScanSpec rs []

theorem completionLoop_length (miss : List String) :
    ∀ (ref : List String) (m : Nat), (completionLoop miss ref m).length = ref.length := by
  intro ref
  induction ref with
  | nil => intro m; rfl
  | cons r rs ih =>
    intro m
    by_cases hm : m < miss.length
    · by_cases hr : r = miss[m]
      · simp [completionLoop, hm, hr, ih]
      · simp [completionLoop, hm, hr, ih]
    · simp [completionLoop, hm, ih]

theorem completionLoop_eq_scan (miss : List String) :
    ∀ (ref : List String) (m : Nat),
      completionLoop miss ref m = completionScanSpec ref (miss.drop m) := by
  intro ref
  induction ref with
  | nil => intro m; rfl
  | cons r rs ih =>
    intro m
    by_cases hm : m < miss.length
    · rw [List.drop_eq_getElem_cons hm]
      by_cases hr : r = miss[m]
      · simp [completionLoop, completionScanSpec, hm, hr, ih]
      · simp [completionLoop, completionScanSpec, hm, hr, ih]
    · have hnil : miss.drop m = [] := by
        apply List.drop_eq_nil_of_le
        omega
      simp [completionLoop, completionScanSpec, hm, hnil, ih]

/-- C1: for manifests where `missing.Nodes` is an ordered subsequence of
`mfst.Nodes`, `NewCompletion` returns a vector of length
`mfst.Nodes.length` equal to the forward cursor scan described by the
spec. -/
theorem c1_newCompletion_forward_scan (mfst missing : Manifest)
    (hsub : missing.Nodes.Sublist mfst.Nodes) :
    (NewCompletion mfst missing).length = mfst.Nodes.length ∧
    NewCompletion mfst missing = completionScanSpec mfst.Nodes missing.Nodes := by
  refine ⟨completionLoop_length _ _ _, ?_⟩
  have h := completionLoop_eq_scan missing.Nodes mfst.Nodes 0
  simpa using h

theorem c1_witness :
    (NewCompletion ⟨[], ["a", "b", "c"]⟩ ⟨[], ["b"]⟩).length =
      (Manifest.mk [] (["a", "b", "c"])).Nodes.length ∧
    NewCompletion ⟨[], ["a", "b", "c"]⟩ ⟨[], ["b"]⟩ =
      completionScanSpec ["a", "b", "c"] ["b"] :=
  c1_newCompletion_forward_scan ⟨[], ["a", "b", "c"]⟩ ⟨[], ["b"]⟩
    (List.Sublist.cons ("a") (List.Sublist.cons₂ ("b") (List.nil_sublist ["c"])))

theorem completionScanSpec_self : ∀ (l : List String),
    completionScanSpec l l = List.replicate l.length 0 := by
  intro l
  induction l with
  | nil => rfl
  | cons h t ih =>
    cases t with
    | nil => simp [completionScanSpec]
    | cons h2 t2 => simp [completionScanSpec, List.replicate_succ] at ih ⊢; exact ih

/-- C2 counterexample: with reference and missing manifests equal, every
reference node matches at the cursor, so the completion is all 0, not all
100. -/
theorem c2_counterexample :
    ¬ (∀ x ∈ NewCompletion ⟨[], ["QmA"]⟩ ⟨[], ["QmA"]⟩, x = 100) := by
  decide

/-- C2 (amended): `NewCompletion m m` yields the all-zero vector — a fresh
session over the full manifest starts with nothing marked local. -/
theorem c2_equal_manifests_all_zero (m : Manifest) :
    NewCompletion m m = List.replicate m.Nodes.length 0 := by
  unfold NewCompletion
  rw [completionLoop_eq_scan m.Nodes m.Nodes 0]
  simpa using completionScanSpec_self m.Nodes

/- ### The receive session (`dsync/session.go`) -/

/-- Modelled from the spec: the response statuses `Ok`, `Errored`, `Retry`
of section 4.4; their Go declarations live in the `dsync` package outside
the provided sources. -/
inductive RBStatus where
  | ok
  | errored
  | retry
deriving DecidableEq

/-- Modelled from the spec: errors carried by a receive response — either
the underlying write error or a hash mismatch (expected vs. derived). -/
inductive RBErr where
  | underlying (e : String)
  | hashMismatch (expected got : String)
deriving DecidableEq

/-- Modelled from the spec: the `ReceiveResponse` returned by
`session.ReceiveBlock`; its Go declaration lives outside the provided
sources. -/
structure ReceiveResponse where
  Hash : String
  Status : RBStatus
  Err : Option RBErr
deriving DecidableEq

/-- The `session` state from `dsync/session.go`, restricted to the fields
`ReceiveBlock` reads and writes: the reference manifest and the live
completion vector.  The identifier, context, channel and pin flag are I/O
plumbing with no bearing on the embedded behaviour. -/
structure DSession where
  mfst : Manifest
  prog : List Nat
deriving DecidableEq

/-- The progress-update loop of `ReceiveBlock`: `for i, h := range
s.mfst.Nodes { if hash == h { s.prog[i] = 100 } }`.  Out-of-range writes
are a no-op here where Go would panic; sessions keep `prog` and `Nodes` at
equal length. -/
def markCompleteAux (hash : String) : List String → Nat → List Nat → List Nat
  | [], _, p => p
  | h :: t, i, p => markCompleteAux hash t (i + 1) (if hash = h then p.set i 100 else p)

/-- `session.ReceiveBlock` from `dsync/session.go`.  The block-write
capability `put` stands for `bapi.Put` composed with
`bstat.Path().Cid().String()`: it yields the content identifier derived
from the written payload, or the write error. -/
def ReceiveBlock (put : String → Except String String) (s : DSession)
    (hash : String) (data : String) : DSession × ReceiveResponse :=
  match put data with
  | .error e => (s, ⟨hash, .retry, some (.underlying e)⟩)
  | .ok idStr =>
    if idStr = hash then
      ({ s with prog := markCompleteAux hash s.mfst.Nodes 0 s.prog }, ⟨hash, .ok, none⟩)
    else
      (s, ⟨hash, .errored, some (.hashMismatch hash idStr)⟩)

theorem markCompleteAux_length (hash : String) :
    ∀ (t : List String) (i : Nat) (p : List Nat),
      (markCompleteAux hash t i p).length = p.length := by
  intro t
  induction t with
  | nil => intro i p; rfl
  | cons h tt ih =>
    intro i p
    rw [markCompleteAux, ih]
    by_cases hh : hash = h
    · rw [if_pos hh, List.length_set]
    · rw [if_neg hh]

theorem markCompleteAux_getElem? (hash : String) :
    ∀ (t : List String) (i : Nat) (p : List Nat) (j : Nat),
      (markCompleteAux hash t i p)[j]? =
        if i ≤ j ∧ t[j - i]? = some hash then p[j]?.map (fun _ => 100) else p[j]? := by
  intro t
  induction t with
  | nil =>
    intro i p j
    simp [markCompleteAux]
  | cons h tt ih =>
    intro i p j
    rw [markCompleteAux, ih]
    rcases Nat.lt_trichotomy j i with hji | hji | hji
    · have h1 : ¬ (i ≤ j) := by omega
      have h2 : ¬ (i + 1 ≤ j) := by omega
      simp only [h1, h2, false_and, if_false]
      by_cases hh : hash = h
      · rw [if_pos hh, List.getElem?_set_ne (by omega)]
      · rw [if_neg hh]
    · subst hji
      have h2 : ¬ (j + 1 ≤ j) := by omega
      simp only [h2, false_and, if_false]
      have hidx : (h :: tt)[j - j]? = some h := by simp
      by_cases hh : hash = h
      · rw [if_pos hh]
        have : (j ≤ j ∧ (h :: tt)[j - j]? = some hash) := by
          refine ⟨le_refl j, ?_⟩
          rw [hidx, hh]
        rw [if_pos this, List.getElem?_set_self']
        cases p[j]? <;> rfl
      · rw [if_neg hh]
        have : ¬ (j ≤ j ∧ (h :: tt)[j - j]? = some hash) := by
          intro hc
          rw [hidx] at hc
          exact hh (by injection hc.2 with hv; exact hv.symm)
        rw [if_neg this]
    · have h1 : i ≤ j := by omega
      have h2 : i + 1 ≤ j := by omega
      have hidx : (h :: tt)[j - i]? = tt[j - (i + 1)]? := by
        have : j - i = (j - (i + 1)) + 1 := by omega
        rw [this]
        simp
      rw [hidx]
      by_cases hh : hash = h
      · rw [if_pos hh, List.getElem?_set_ne (by omega)]
        simp [h1, h2]
      · rw [if_neg hh]
        simp [h1, h2]

theorem markCompleteAux_not_mem (hash : String) :
    ∀ (t : List String) (i : Nat) (p : List Nat),
      ¬ hash ∈ t → markCompleteAux hash t i p = p := by
  intro t
  induction t with
  | nil => intro i p _; rfl
  | cons h tt ih =>
    intro i p hmem
    have hh : ¬ hash = h := fun hc => hmem (by rw [hc]; exact List.mem_cons_self _ _)
    rw [markCompleteAux, if_neg hh]
    exact ih (i + 1) p (fun hc => hmem (List.mem_cons_of_mem _ hc))

/-- C7: when the write succeeds but the derived identifier differs from the
expected hash, `ReceiveBlock` returns `Errored` carrying a hash-mismatch
error and leaves the session (hence its completion vector) unchanged. -/
theorem c7_receiveBlock_mismatch (put : String → Except String String)
    (s : DSession) (hash data idStr : String)
    (hput : put data = Except.ok idStr) (hne : idStr ≠ hash) :
    (ReceiveBlock put s hash data).1 = s ∧
    (ReceiveBlock put s hash data).2.Status = RBStatus.errored ∧
    (ReceiveBlock put s hash data).2.Err = some (RBErr.hashMismatch hash idStr) := by
  simp [ReceiveBlock, hput, hne]

theorem c7_witness :
    (ReceiveBlock (fun _ => Except.ok ("Qm999"))
        ⟨⟨[], ["QmA", "QmB", "Qm123"]⟩, [0, 0, 0]⟩ ("Qm123") ("payload")).1 =
      ⟨⟨[], ["QmA", "QmB", "Qm123"]⟩, [0, 0, 0]⟩ ∧
    (ReceiveBlock (fun _ => Except.ok ("Qm999"))
        ⟨⟨[], ["QmA", "QmB", "Qm123"]⟩, [0, 0, 0]⟩ ("Qm123") ("payload")).2.Status =
      RBStatus.errored ∧
    (ReceiveBlock (fun _ => Except.ok ("Qm999"))
        ⟨⟨[], ["QmA", "QmB", "Qm123"]⟩, [0, 0, 0]⟩ ("Qm123") ("payload")).2.Err =
      some (RBErr.hashMismatch ("Qm123") ("Qm999")) :=
  c7_receiveBlock_mismatch (fun _ => Except.ok ("Qm999"))
    ⟨⟨[], ["QmA", "QmB", "Qm123"]⟩, [0, 0, 0]⟩ ("Qm123") ("payload") ("Qm999")
    rfl (by decide)

/-- C8: when the write succeeds and the derived identifier equals the
expected hash, `ReceiveBlock` returns `Ok` with no error, keeps the
completion length, sets every entry whose manifest node equals the hash to
100, and leaves all other entries unchanged. -/
theorem c8_receiveBlock_match (put : String → Except String String)
    (s : DSession) (hash data : String)
    (hput : put data = Except.ok hash)
    (hlen : s.prog.length = s.mfst.Nodes.length) :
    (ReceiveBlock put s hash data).2.Status = RBStatus.ok ∧
    (ReceiveBlock put s hash data).2.Err = none ∧
    ((ReceiveBlock put s hash data).1).prog.length = s.prog.length ∧
    ∀ (j : Nat), ((ReceiveBlock put s hash data).1).prog[j]? =
      if s.mfst.Nodes[j]? = some hash then s.prog[j]?.map (fun _ => 100)
      else s.prog[j]? := by
  refine ⟨?_, ?_, ?_, ?_⟩
  · simp [ReceiveBlock, hput]
  · simp [ReceiveBlock, hput]
  · simp [ReceiveBlock, hput, markCompleteAux_length]
  · intro j
    have h := markCompleteAux_getElem? hash s.mfst.Nodes 0 s.prog j
    simp only [Nat.zero_le, true_and, Nat.sub_zero] at h
    simp [ReceiveBlock, hput, h]

theorem c8_witness :
    (ReceiveBlock (fun _ => Except.ok ("Qm123"))
        ⟨⟨[], ["QmA", "QmB", "Qm123"]⟩, [0, 0, 0]⟩ ("Qm123") ("payload")).2.Status =
      RBStatus.ok ∧
    (ReceiveBlock (fun _ => Except.ok ("Qm123"))
        ⟨⟨[], ["QmA", "QmB", "Qm123"]⟩, [0, 0, 0]⟩ ("Qm123") ("payload")).2.Err = none ∧
    ((ReceiveBlock (fun _ => Except.ok ("Qm123"))
        ⟨⟨[], ["QmA", "QmB", "Qm123"]⟩, [0, 0, 0]⟩ ("Qm123") ("payload")).1).prog.length =
      ([0, 0, 0] : List Nat).length ∧
    ∀ (j : Nat), ((ReceiveBlock (fun _ => Except.ok ("Qm123"))
        ⟨⟨[], ["QmA", "QmB", "Qm123"]⟩, [0, 0, 0]⟩ ("Qm123") ("payload")).1).prog[j]? =
      if (["QmA", "QmB", "Qm123"] : List String)[j]? = some ("Qm123") then
        (([0, 0, 0] : List Nat)[j]?).map (fun _ => 100)
      else ([0, 0, 0] : List Nat)[j]? :=
  c8_receiveBlock_match (fun _ => Except.ok ("Qm123"))
    ⟨⟨[], ["QmA", "QmB", "Qm123"]⟩, [0, 0, 0]⟩ ("Qm123") ("payload") rfl (by decide)

/-- C10: a verified block whose hash occurs nowhere in the reference
manifest is still accepted with `Ok` and no error, and the completion
vector does not change. -/
theorem c10_receiveBlock_unknown_hash (put : String → Except String String)
    (s : DSession) (hash data : String)
    (hput : put data = Except.ok hash)
    (hmem : ¬ hash ∈ s.mfst.Nodes) :
    (ReceiveBlock put s hash data).2.Status = RBStatus.ok ∧
    (ReceiveBlock put s hash data).2.Err = none ∧
    ((ReceiveBlock put s hash data).1).prog = s.prog := by
  refine ⟨?_, ?_, ?_⟩
  · simp [ReceiveBlock, hput]
  · simp [ReceiveBlock, hput]
  · simp [ReceiveBlock, hput, markCompleteAux_not_mem hash s.mfst.Nodes 0 s.prog hmem]

theorem c10_witness :
    (ReceiveBlock (fun _ => Except.ok ("QmZZ"))
        ⟨⟨[], ["QmA", "QmB"]⟩, [0, 0]⟩ ("QmZZ") ("payload")).2.Status = RBStatus.ok ∧
    (ReceiveBlock (fun _ => Except.ok ("QmZZ"))
        ⟨⟨[], ["QmA", "QmB"]⟩, [0, 0]⟩ ("QmZZ") ("payload")).2.Err = none ∧
    ((ReceiveBlock (fun _ => Except.ok ("QmZZ"))
        ⟨⟨[], ["QmA", "QmB"]⟩, [0, 0]⟩ ("QmZZ") ("payload")).1).prog = [0, 0] :=
  c10_receiveBlock_unknown_hash (fun _ => Except.ok ("QmZZ"))
    ⟨⟨[], ["QmA", "QmB"]⟩, [0, 0]⟩ ("QmZZ") ("payload") rfl (by decide)

/- ### The manifest builder (`NewManifest` / `mstate.makeManifest` / `mstate.addNode`) -/

/-- The slice of the ipld `Node` interface that `dag.go` consumes: a content
identifier, outgoing link targets (each a CID resolvable through the node
getter), and the result of `Size()` — a value together with an optional
error, matching Go's `(uint64, error)` pair. -/
structure GoNode where
  cid : String
  links : List String
  sizeVal : Nat
  sizeErr : Option String
deriving DecidableEq

/-- The `mstate` record from `dag.go`.  The Go maps `sizes` and `weights`
are association lists (keys are inserted at most once, so first-match
lookup coincides with Go map lookup). -/
structure Mstate where
  nodes : List String
  links : List (String × String)
  sizes : List (String × Nat)
  weights : List (String × Nat)
deriving DecidableEq

/-- First-match association-list lookup, the embedding of Go map access. -/
def alookup (k : String) : List (String × Nat) → Option Nat
  | [] => none
  | (a, v) :: t => if a = k then some v else alookup k t

def emptyMstate : Mstate := ⟨[], [], [], []⟩

/-- First-visit bookkeeping of `addNode`: append the id to `m.Nodes` and
record its size. -/
def enterState (st : Mstate) (n : GoNode) : Mstate :=
  { st with nodes := st.nodes ++ [n.cid], sizes := (n.cid, n.sizeVal) :: st.sizes }

/-- `ms.links = append(ms.links, [2]string{id, linkNode.Cid().String()})`. -/
def addLink (st : Mstate) (a b : String) : Mstate :=
  { st with links := st.links ++ [(a, b)] }

/-- `ms.weights[id] = *weight`. -/
def setWeight (st : Mstate) (v : String) (w : Nat) : Mstate :=
  { st with weights := (v, w) :: st.weights }

/-- The two mutually recursive phases of `mstate.addNode`: processing a
node, and the `for _, link := range node.Links()` loop with the
accumulated out-parameter weight. -/
inductive AddCall where
  | node (n : GoNode) (w : Nat)
  | links (id : String) (ls : List String) (w : Nat)
deriving DecidableEq

/-- Outcome of a (fuel-limited) run of `addNode`: out of fuel, a Go error
together with the state at the moment of failure (the Go method returns
with `ms` partially filled), or success with the final state and the final
`*weight`. -/
inductive AddRes where
  | timeout
  | fail (e : String) (st : Mstate)
  | ok (st : Mstate) (w : Nat)
deriving DecidableEq

/-- `mstate.addNode` from `dag.go`, embedded as a fuel-indexed interpreter.
The Go recursion terminates because the `sizes` map grows; the fuel makes
the definition structurally recursive (and hence executable) without
changing any successful run: every theorem below quantifies over the fuel
and conditions on the run finishing. -/
def addNode (ng : String → Except String GoNode) : Nat → Mstate → AddCall → AddRes
  | 0, _, _ => .timeout
  | fuel + 1, st, .node n w =>
    match alookup n.cid st.sizes with
    | some _ => .ok st w
    | none =>
      match n.sizeErr with
      | some e => .fail e (enterState st n)
      | none =>
        match addNode ng fuel (enterState st n) (.links n.cid n.links w) with
        | .timeout => .timeout
        | .fail e st2 => .fail e st2
        | .ok st2 w2 => .ok (setWeight st2 n.cid w2) w2
  | _ + 1, st, .links _ [] w => .ok st w
  | fuel + 1, st, .links id (l :: ls) w =>
    match ng l with
    | .error e => .fail e st
    | .ok c =>
      match addNode ng fuel (addLink st id c.cid) (.node c 0) with
      | .timeout => .timeout
      | .fail e st2 => .fail e st2
      | .ok st2 lw => addNode ng fuel st2 (.links id ls (w + 1 + lw))

/-- The final recorded weight of an id (Go map read with zero default, as
in `mstate.Less`). -/
def wtOf (st : Mstate) (v : String) : Nat := (alookup v st.weights).getD 0

/-- Boolean lexicographic comparison of character lists.  Go compares
strings byte-wise; UTF-8 byte order coincides with scalar-value order, so
character-wise comparison is the faithful embedding.  (Core's `String.ltb`
is defined by well-founded recursion and does not evaluate inside the
kernel, hence this structural definition.) -/
def strLtB : List Char → List Char → Bool
  | [], [] => false
  | [], _ :: _ => true
  | _ :: _, [] => false
  | a :: as, b :: bs => if a < b then true else if b < a then false else strLtB as bs

/-- Lexicographic less-or-equal on strings (Go's `<=` on identifiers). -/
def strLe (a b : String) : Prop := strLtB a.data b.data = true ∨ a = b

instance : DecidableRel strLe := fun a b => by
  unfold strLe
  infer_instance

theorem strLtB_trans :
    ∀ (x y z : List Char), strLtB x y = true → strLtB y z = true → strLtB x z = true := by
  intro x
  induction x with
  | nil =>
    intro y z hxy hyz
    cases y with
    | nil => exact absurd hxy (by simp [strLtB])
    | cons b bs =>
      cases z with
      | nil => exact absurd hyz (by simp [strLtB])
      | cons c cs => simp [strLtB]
  | cons a as ih =>
    intro y z hxy hyz
    cases y with
    | nil => exact absurd hxy (by simp [strLtB])
    | cons b bs =>
      cases z with
      | nil => exact absurd hyz (by simp [strLtB])
      | cons c cs =>
        rw [strLtB] at hxy hyz ⊢
        by_cases hab : a < b
        · by_cases hbc : b < c
          · rw [if_pos (lt_trans hab hbc)]
          · have hcb : b ≤ c := by
              rw [if_neg hbc] at hyz
              by_cases hcb2 : c < b
              · rw [if_pos hcb2] at hyz
                exact absurd hyz (by simp)
              · exact le_of_not_lt hcb2
            rw [if_pos (lt_of_lt_of_le hab hcb)]
        · by_cases hba : b < a
          · rw [if_neg hab, if_pos hba] at hxy
            exact absurd hxy (by simp)
          · have hb : a = b := le_antisymm (le_of_not_lt hba) (le_of_not_lt hab)
            subst hb
            rw [if_neg hab, if_neg hba] at hxy
            by_cases hac : a < c
            · rw [if_pos hac]
            · by_cases hca : c < a
              · rw [if_neg hac, if_pos hca] at hyz
                exact absurd hyz (by simp)
              · rw [if_neg hac, if_neg hca] at hyz ⊢
                exact ih bs cs hxy hyz

theorem strLtB_trichotomy :
    ∀ (x y : List Char), strLtB x y = true ∨ strLtB y x = true ∨ x = y := by
  intro x
  induction x with
  | nil =>
    intro y
    cases y with
    | nil => exact Or.inr (Or.inr rfl)
    | cons b bs => exact Or.inl (by simp [strLtB])
  | cons a as ih =>
    intro y
    cases y with
    | nil => exact Or.inr (Or.inl (by simp [strLtB]))
    | cons b bs =>
      by_cases hab : a < b
      · exact Or.inl (by rw [strLtB, if_pos hab])
      · by_cases hba : b < a
        · exact Or.inr (Or.inl (by rw [strLtB, if_pos hba]))
        · have hb : a = b := le_antisymm (le_of_not_lt hba) (le_of_not_lt hab)
          subst hb
          rcases ih bs with h | h | h
          · exact Or.inl (by rw [strLtB, if_neg hab, if_neg hab]; exact h)
          · exact Or.inr (Or.inl (by rw [strLtB, if_neg hab, if_neg hab]; exact h))
          · subst h
            exact Or.inr (Or.inr rfl)

theorem strLe_total (a b : String) : strLe a b ∨ strLe b a := by
  rcases strLtB_trichotomy a.data b.data with h | h | h
  · exact Or.inl (Or.inl h)
  · exact Or.inr (Or.inl h)
  · refine Or.inl (Or.inr ?_)
    cases a
    cases b
    simp at h
    rw [h]

theorem strLe_trans (a b c : String) (hab : strLe a b) (hbc : strLe b c) :
    strLe a c := by
  rcases hab with hab | hab
  · rcases hbc with hbc | hbc
    · exact Or.inl (strLtB_trans a.data b.data c.data hab hbc)
    · subst hbc
      exact Or.inl hab
  · subst hab
    exact hbc

/-- The composite link sort key `1000*(from+1) + to` of `sortableLinks.Less`. -/
def linkKey (p : Int × Int) : Int := 1000 * (p.1 + 1) + p.2

/-- The index-assignment loop of `makeManifest` (`for i, id := range
ms.m.Nodes { ms.weights[id] = i }`, later reads defaulting like a Go map
read): ascending scan, last assignment wins. -/
def idxAssign (nodes : List String) (v : String) : Int :=
  nodes.enum.foldl (fun acc p => if p.2 = v then (p.1 : Int) else acc) 0

/-- Contract of Go's `sort.Sort(ms)` on the alpha-sorted node list: any
function returning a permutation of its input that is ordered by
non-increasing weight is an admissible weight sort.  `sort.Sort` is
documented as unstable, so nothing beyond this contract may be assumed. -/
def SortSpec (f : (String → Nat) → List String → List String) : Prop :=
  ∀ (wt : String → Nat) (l : List String),
    (f wt l).Perm l ∧ List.Pairwise (fun a b => wt b ≤ wt a) (f wt l)

/-- The tail of `mstate.makeManifest` after the walk: alpha-sort the node
list (its result is the unique sorted permutation, so any correct sort
models Go's), re-sort by weight through the given admissible weight sort,
then re-express links as index pairs and sort them by the composite key. -/
def assemble (sortW : (String → Nat) → List String → List String)
    (st : Mstate) : Manifest :=
  let alpha := List.insertionSort strLe st.nodes
  let nodes' := sortW (wtOf st) alpha
  let raw := st.links.map (fun p => (idxAssign nodes' p.1, idxAssign nodes' p.2))
  ⟨List.insertionSort (fun a b : Int × Int => linkKey a ≤ linkKey b) raw, nodes'⟩

/-- `NewManifest` from `dag.go`: fetch the root, run the walk, assemble.
Like the Go function it returns the (possibly partially built) manifest
together with the error: on a failed walk the returned manifest carries
the nodes appended so far and no links. -/
def NewManifest (sortW : (String → Nat) → List String → List String)
    (fuel : Nat) (ng : String → Except String GoNode) (id : String) :
    Option (Manifest × Option String) :=
  match ng id with
  | .error e => some (⟨[], []⟩, some e)
  | .ok node =>
    match addNode ng fuel emptyMstate (.node node 0) with
    | .timeout => none
    | .fail e st => some (⟨[], st.nodes⟩, some e)
    | .ok st _ => some (assemble sortW st, none)

/-- A content identifier as `RootCID` sees it: either parsed or the
`cid.Undef` sentinel. -/
inductive Cid where
  | undef
  | cid (s : String)
deriving DecidableEq

/-- `Manifest.RootCID` from `dag.go`, with `cid.Parse` abstracted as a
capability (`none` models a parse error). -/
def RootCID (parse : String → Option Cid) (m : Manifest) : Cid :=
  match m.Nodes with
  | [] => .undef
  | h :: _ =>
    match parse h with
    | none => .undef
    | some c => c

/-- A stable admissible weight sort (descending weight, ties kept in input
order). -/
def goodSortW (wt : String → Nat) (l : List String) : List String :=
  List.insertionSort (fun a b => wt b ≤ wt a) l

/-- An admissible weight sort breaking ties by descending identifier —
admissible for the unstable `sort.Sort` contract. -/
def badSortW (wt : String → Nat) (l : List String) : List String :=
  List.insertionSort (fun a b => wt b < wt a ∨ (wt a = wt b ∧ strLe b a)) l

theorem goodSortW_spec : SortSpec goodSortW := by
  intro wt l
  refine ⟨List.perm_insertionSort _ _, ?_⟩
  haveI : IsTotal String (fun a b => wt b ≤ wt a) := ⟨fun a b => Nat.le_total (wt b) (wt a)⟩
  haveI : IsTrans String (fun a b => wt b ≤ wt a) :=
    ⟨fun _ _ _ h1 h2 => Nat.le_trans h2 h1⟩
  exact List.sorted_insertionSort _ l

theorem badSortW_spec : SortSpec badSortW := by
  intro wt l
  refine ⟨List.perm_insertionSort _ _, ?_⟩
  haveI : IsTotal String (fun a b => wt b < wt a ∨ (wt a = wt b ∧ strLe b a)) := by
    constructor
    intro a b
    rcases Nat.lt_trichotomy (wt a) (wt b) with h | h | h
    · exact Or.inr (Or.inl h)
    · rcases strLe_total b a with hab | hab
      · exact Or.inl (Or.inr ⟨h, hab⟩)
      · exact Or.inr (Or.inr ⟨h.symm, hab⟩)
    · exact Or.inl (Or.inl h)
  haveI : IsTrans String (fun a b => wt b < wt a ∨ (wt a = wt b ∧ strLe b a)) := by
    constructor
    intro a b c hab hbc
    rcases hab with h1 | ⟨h1, h1s⟩
    · rcases hbc with h2 | ⟨h2, _⟩
      · exact Or.inl (Nat.lt_trans h2 h1)
      · exact Or.inl (h2 ▸ h1)
    · rcases hbc with h2 | ⟨h2, h2s⟩
      · exact Or.inl (h1 ▸ h2)
      · exact Or.inr ⟨h1.trans h2, strLe_trans c b a h2s h1s⟩
  have hs := List.sorted_insertionSort
    (fun a b => wt b < wt a ∨ (wt a = wt b ∧ strLe b a)) l
  refine hs.imp ?_
  intro a b hab
  rcases hab with h | ⟨h, _⟩
  · exact Nat.le_of_lt h
  · exact Nat.le_of_eq h.symm

/- ### Invariants of the walk -/

/-- Go-map membership in the visited (`sizes`) map. -/
def hasS (st : Mstate) (v : String) : Bool := (alookup v st.sizes).isSome

/-- An error originates in one of the capabilities the walk consults:
either a node fetch failed with `e`, or a fetched node's `Size()` returned
`e`. -/
def ErrSource (ng : String → Except String GoNode) (e : String) : Prop :=
  (∃ l, ng l = Except.error e) ∨ (∃ l n, ng l = Except.ok n ∧ n.sizeErr = some e)

/-- Already-visited ids stay visited and keep their recorded weight. -/
def Preserves (st st' : Mstate) : Prop :=
  ∀ v, hasS st v = true → hasS st' v = true ∧ alookup v st'.weights = alookup v st.weights

/-- The node list and the visited map have the same members. -/
def NodesDom (st : Mstate) : Prop := ∀ v, v ∈ st.nodes ↔ hasS st v = true

/-- The walk invariant, by call shape and outcome.  For a successful
first-visit node call: the weight is recorded, monotone in the incoming
accumulator, and strictly dominates the recorded weight of every other
node first visited during the call. -/
def AddInv (ng : String → Except String GoNode) (st : Mstate) :
    AddCall → AddRes → Prop
  | _, .timeout => True
  | .node n _, .fail e _ => n.sizeErr = some e ∨ ErrSource ng e
  | .links _ _ _, .fail e _ => ErrSource ng e
  | .node n w, .ok st' w' =>
    (hasS st n.cid = true → st' = st ∧ w' = w) ∧
    (hasS st n.cid = false →
      w ≤ w' ∧ hasS st' n.cid = true ∧ alookup n.cid st'.weights = some w' ∧
      n.cid ∈ st'.nodes ∧ (∃ ext, st'.nodes = st.nodes ++ ext) ∧
      Preserves st st' ∧
      (∀ v, hasS st v = false → hasS st' v = true → v ≠ n.cid →
        ∃ k, alookup v st'.weights = some k ∧ k + w < w') ∧
      (NodesDom st → NodesDom st'))
  | .links _ _ w, .ok st' w' =>
    w ≤ w' ∧ (∃ ext, st'.nodes = st.nodes ++ ext) ∧ Preserves st st' ∧
    (∀ v, hasS st v = false → hasS st' v = true →
      ∃ k, alookup v st'.weights = some k ∧ k + w < w') ∧
    (NodesDom st → NodesDom st')

theorem hasS_enterState (st : Mstate) (n : GoNode) (v : String) :
    hasS (enterState st n) v = true ↔ (v = n.cid ∨ hasS st v = true) := by
  by_cases h : n.cid = v
  · subst h
    simp [hasS, enterState, alookup]
  · simp [hasS, enterState, alookup, h]
    intro hv
    exact absurd hv.symm h

theorem hasS_addLink (st : Mstate) (a b v : String) :
    hasS (addLink st a b) v = hasS st v := rfl

theorem hasS_setWeight (st : Mstate) (u : String) (w : Nat) (v : String) :
    hasS (setWeight st u w) v = hasS st v := rfl

theorem preserves_refl (st : Mstate) : Preserves st st := fun _ h => ⟨h, rfl⟩

theorem nodesDom_enterState (st : Mstate) (n : GoNode) (h : NodesDom st) :
    NodesDom (enterState st n) := by
  intro v
  rw [hasS_enterState]
  constructor
  · intro hv
    rcases List.mem_append.mp hv with hv | hv
    · exact Or.inr ((h v).mp hv)
    · simp at hv
      exact Or.inl hv
  · intro hv
    rcases hv with hv | hv
    · subst hv
      exact List.mem_append.mpr (Or.inr (by simp [enterState]))
    · exact List.mem_append.mpr (Or.inl ((h v).mpr hv))

theorem alookup_cons_self (k : String) (x : Nat) (t : List (String × Nat)) :
    alookup k ((k, x) :: t) = some x := by
  simp [alookup]

theorem alookup_cons_ne (k a : String) (x : Nat) (t : List (String × Nat))
    (h : a ≠ k) : alookup k ((a, x) :: t) = alookup k t := by
  simp [alookup, h]

theorem addNode_inv (ng : String → Except String GoNode) :
    ∀ (fuel : Nat) (st : Mstate) (call : AddCall),
      AddInv ng st call (addNode ng fuel st call) := by
  intro fuel
  induction fuel with
  | zero =>
    intro st call
    simp [addNode, AddInv]
  | succ fuel ih =>
    intro st call
    match call with
    | .node n w =>
      rw [addNode]
      split
      · rename_i s hs
        refine ⟨fun _ => ⟨rfl, rfl⟩, fun hfalse => ?_⟩
        rw [hasS, hs] at hfalse
        simp at hfalse
      · rename_i hs
        have hfresh : hasS st n.cid = false := by rw [hasS, hs]; rfl
        split
        · rename_i e hsz
          exact Or.inl hsz
        · rename_i hsz
          split
          · trivial
          · rename_i e st2 hrec
            have hi := ih (enterState st n) (.links n.cid n.links w)
            rw [hrec] at hi
            exact Or.inr hi
          · rename_i st2 w2 hrec
            have hi := ih (enterState st n) (.links n.cid n.links w)
            rw [hrec] at hi
            obtain ⟨hw, ⟨ext, hext⟩, hpres, hnew, hdom⟩ := hi
            have hst1cid : hasS (enterState st n) n.cid = true := by
              rw [hasS_enterState]
              exact Or.inl rfl
            have hcid2 := hpres n.cid hst1cid
            refine ⟨fun htrue => ?_, fun _ => ?_⟩
            · rw [hfresh] at htrue
              exact absurd htrue (by simp)
            refine ⟨hw, ?_, ?_, ?_, ?_, ?_, ?_, ?_⟩
            · rw [hasS_setWeight]
              exact hcid2.1
            · exact alookup_cons_self n.cid w2 st2.weights
            · show n.cid ∈ st2.nodes
              rw [hext]
              exact List.mem_append.mpr (Or.inl (by simp [enterState]))
            · refine ⟨[n.cid] ++ ext, ?_⟩
              show st2.nodes = _
              rw [hext]
              simp [enterState]
            · intro v hv
              have hvne : v ≠ n.cid := by
                intro hc
                rw [hc, hfresh] at hv
                exact absurd hv (by simp)
              have hv1 : hasS (enterState st n) v = true := by
                rw [hasS_enterState]
                exact Or.inr hv
              have h2 := hpres v hv1
              refine ⟨h2.1, ?_⟩
              show alookup v ((n.cid, w2) :: st2.weights) = _
              rw [alookup_cons_ne v n.cid w2 st2.weights (fun hc => hvne hc.symm), h2.2]
              rfl
            · intro v hv hv' hvne
              have hv1 : hasS (enterState st n) v = false := by
                by_cases hcc : hasS (enterState st n) v = true
                · rcases (hasS_enterState st n v).mp hcc with hcc | hcc
                  · exact absurd hcc hvne
                  · rw [hcc] at hv
                    exact absurd hv (by simp)
                · rw [Bool.not_eq_true] at hcc
                  exact hcc
              have hv2 : hasS st2 v = true := by
                rw [hasS_setWeight] at hv'
                exact hv'
              obtain ⟨k, hk, hklt⟩ := hnew v hv1 hv2
              refine ⟨k, ?_, hklt⟩
              show alookup v ((n.cid, w2) :: st2.weights) = some k
              rw [alookup_cons_ne v n.cid w2 st2.weights (fun hc => hvne hc.symm)]
              exact hk
            · intro hd
              have hd2 := hdom (nodesDom_enterState st n hd)
              intro v
              rw [hasS_setWeight]
              show v ∈ st2.nodes ↔ _
              exact hd2 v
    | .links id [] w =>
      rw [addNode]
      exact ⟨le_refl w, ⟨[], by simp⟩, preserves_refl st,
        fun v hv hv' => absurd hv' (by rw [hv]; simp), fun h => h⟩
    | .links id (l :: ls) w =>
      rw [addNode]
      split
      · rename_i e hng
        exact Or.inl ⟨l, hng⟩
      · rename_i c hng
        split
        · trivial
        · rename_i e st2 hrec1
          have hi := ih (addLink st id c.cid) (.node c 0)
          rw [hrec1] at hi
          rcases hi with hi | hi
          · exact Or.inr ⟨l, c, hng, hi⟩
          · exact hi
        · rename_i st2 lw hrec1
          have hi1 := ih (addLink st id c.cid) (.node c 0)
          rw [hrec1] at hi1
          cases hrec2 : addNode ng fuel st2 (.links id ls (w + 1 + lw)) with
          | timeout => trivial
          | fail e st3 =>
            have hi2 := ih st2 (.links id ls (w + 1 + lw))
            rw [hrec2] at hi2
            exact hi2
          | ok st' w' =>
            have hi2 := ih st2 (.links id ls (w + 1 + lw))
            rw [hrec2] at hi2
            obtain ⟨hw2, ⟨ext2, hext2⟩, hpres2, hnew2, hdom2⟩ := hi2
            by_cases hc : hasS st c.cid = true
            · obtain ⟨hst2, hlw⟩ := hi1.1 (by rw [hasS_addLink]; exact hc)
              subst hlw
              subst hst2
              refine ⟨by omega, ⟨ext2, by rw [hext2]; simp [addLink]⟩, ?_, ?_, ?_⟩
              · intro v hv
                exact hpres2 v (by rw [hasS_addLink]; exact hv)
              · intro v hv hv'
                obtain ⟨k, hk, hklt⟩ := hnew2 v (by rw [hasS_addLink]; exact hv) hv'
                exact ⟨k, hk, by omega⟩
              · intro hd
                refine hdom2 ?_
                intro v
                show v ∈ st.nodes ↔ hasS st v = true
                exact hd v
            · rw [Bool.not_eq_true] at hc
              have hcf : hasS (addLink st id c.cid) c.cid = false := by
                rw [hasS_addLink]
                exact hc
              obtain ⟨_, hc2, hwc, hcmem, ⟨ext1, hext1⟩, hpres1, hnew1, hdom1⟩ :=
                hi1.2 hcf
              refine ⟨by omega, ⟨ext1 ++ ext2, ?_⟩, ?_, ?_, ?_⟩
              · rw [hext2, hext1]
                simp [addLink]
              · intro v hv
                have h1 := hpres1 v (by rw [hasS_addLink]; exact hv)
                have h2 := hpres2 v h1.1
                exact ⟨h2.1, by rw [h2.2, h1.2]; rfl⟩
              · intro v hv hv'
                by_cases hmid : hasS st2 v = true
                · by_cases hvc : v = c.cid
                  · subst hvc
                    have h2 := hpres2 c.cid hc2
                    refine ⟨lw, by rw [h2.2, hwc], by omega⟩
                  · obtain ⟨k, hk, hklt⟩ :=
                      hnew1 v (by rw [hasS_addLink]; exact hv) hmid hvc
                    have h2 := hpres2 v hmid
                    refine ⟨k, by rw [h2.2, hk], by omega⟩
                · rw [Bool.not_eq_true] at hmid
                  obtain ⟨k, hk, hklt⟩ := hnew2 v hmid hv'
                  exact ⟨k, hk, by omega⟩
              · intro hd
                refine hdom2 (hdom1 ?_)
                intro v
                show v ∈ st.nodes ↔ hasS st v = true
                exact hd v

theorem hasS_false_iff (st : Mstate) (v : String) :
    hasS st v = false ↔ alookup v st.sizes = none := by
  rw [hasS]
  cases alookup v st.sizes <;> simp

/-- Root strict dominance: a successful walk from the empty state records
the root's weight and a strictly smaller weight for every other node that
ended up in the node list. -/
theorem addNode_root_max (ng : String → Except String GoNode) (fuel : Nat)
    (n : GoNode) (st' : Mstate) (w' : Nat)
    (h : addNode ng fuel emptyMstate (.node n 0) = .ok st' w') :
    alookup n.cid st'.weights = some w' ∧ n.cid ∈ st'.nodes ∧ NodesDom st' ∧
    ∀ v ∈ st'.nodes, v ≠ n.cid → ∃ k, alookup v st'.weights = some k ∧ k < w' := by
  have hi := addNode_inv ng fuel emptyMstate (.node n 0)
  rw [h] at hi
  have hfresh : hasS emptyMstate n.cid = false := rfl
  obtain ⟨_, h2⟩ := hi
  obtain ⟨_, hcid, hwc, hmem, _, _, hnew, hdom⟩ := h2 hfresh
  have hdome : NodesDom emptyMstate := by
    intro v
    simp [emptyMstate, hasS, alookup]
  have hdom' : NodesDom st' := hdom hdome
  refine ⟨hwc, hmem, hdom', ?_⟩
  intro v hv hvne
  have hvt : hasS st' v = true := (hdom' v).mp hv
  obtain ⟨k, hk, hklt⟩ := hnew v rfl hvt hvne
  exact ⟨k, hk, by omega⟩

/-- Any sort result ordered by non-increasing weight and containing a node
of strictly maximal weight starts with that node. -/
theorem assemble_head_eq_root (sortW : (String → Nat) → List String → List String)
    (hS : SortSpec sortW) (st : Mstate) (root : String)
    (hmem : root ∈ st.nodes)
    (hmax : ∀ v ∈ st.nodes, v ≠ root → wtOf st v < wtOf st root) :
    (assemble sortW st).Nodes.head? = some root := by
  obtain ⟨hperm, hsort⟩ :=
    hS (wtOf st) (List.insertionSort strLe st.nodes)
  have hpa := List.perm_insertionSort strLe st.nodes
  have hperm2 := hperm.trans hpa
  have hmemN : root ∈ sortW (wtOf st)
      (List.insertionSort strLe st.nodes) :=
    hperm2.mem_iff.mpr hmem
  show (sortW (wtOf st)
      (List.insertionSort strLe st.nodes)).head? = some root
  cases hn : sortW (wtOf st)
      (List.insertionSort strLe st.nodes) with
  | nil =>
    rw [hn] at hmemN
    cases hmemN
  | cons hh tt =>
    rw [hn] at hmemN hsort hperm2
    by_cases hr : hh = root
    · subst hr
      rfl
    · exfalso
      have hhmem : hh ∈ st.nodes := hperm2.mem_iff.mp (List.mem_cons_self hh tt)
      have h1 : wtOf st hh < wtOf st root := hmax hh hhmem hr
      have hroot_tt : root ∈ tt := by
        rcases List.mem_cons.mp hmemN with hcase | hcase
        · exact absurd hcase.symm hr
        · exact hcase
      have h2 : wtOf st root ≤ wtOf st hh := (List.pairwise_cons.mp hsort).1 root hroot_tt
      omega

/-- C3: for every admissible weight sort, a successful `NewManifest` run
puts the fetched root's identifier at `Nodes[0]`, so `RootCID` returns the
parsed root CID; and on a manifest with an empty node list `RootCID`
returns the undefined sentinel. -/
theorem c3_root_first :
    (∀ (sortW : (String → Nat) → List String → List String), SortSpec sortW →
      ∀ (fuel : Nat) (ng : String → Except String GoNode) (id : String)
        (node : GoNode) (m : Manifest),
        ng id = Except.ok node → NewManifest sortW fuel ng id = some (m, none) →
        m.Nodes.head? = some node.cid ∧
        ∀ (parse : String → Option Cid) (c : Cid),
          parse node.cid = some c → RootCID parse m = c) ∧
    (∀ (parse : String → Option Cid) (m : Manifest),
      m.Nodes = [] → RootCID parse m = Cid.undef) := by
  constructor
  · intro sortW hS fuel ng id node m hng hm
    simp only [NewManifest, hng] at hm
    cases hw : addNode ng fuel emptyMstate (.node node 0) with
    | timeout =>
      rw [hw] at hm
      simp at hm
    | fail e st =>
      rw [hw] at hm
      simp at hm
    | ok st w =>
      rw [hw] at hm
      simp only [Option.some.injEq, Prod.mk.injEq] at hm
      obtain ⟨hma, -⟩ := hm
      obtain ⟨hwc, hmem, hdom, hmax⟩ := addNode_root_max ng fuel node st w hw
      have hmax' : ∀ v ∈ st.nodes, v ≠ node.cid → wtOf st v < wtOf st node.cid := by
        intro v hv hvne
        obtain ⟨k, hk, hklt⟩ := hmax v hv hvne
        rw [wtOf, wtOf, hk, hwc]
        simpa using hklt
      have hhead := assemble_head_eq_root sortW hS st node.cid hmem hmax'
      rw [hma] at hhead
      refine ⟨hhead, ?_⟩
      intro parse c hparse
      cases hn : m.Nodes with
      | nil =>
        rw [hn] at hhead
        cases hhead
      | cons a t =>
        rw [hn] at hhead
        have ha : a = node.cid := by
          injection hhead
        subst ha
        simp [RootCID, hn, hparse]
  · intro parse m hm
    simp [RootCID, hm]

/-- A three-node DAG with two equal-weight leaves: the root "r" links to
leaves "a" and "b". -/
def ngTie : String → Except String GoNode := fun s =>
  if s = "r" then Except.ok ⟨"r", ["a", "b"], 1, none⟩
  else if s = "a" then Except.ok ⟨"a", [], 1, none⟩
  else if s = "b" then Except.ok ⟨"b", [], 1, none⟩
  else Except.error ("not found")

theorem c3_witness :
    NewManifest goodSortW 10 ngTie ("r") =
      some (⟨[(0, 1), (0, 2)], ["r", "a", "b"]⟩, none) ∧
    (Manifest.mk [(0, 1), (0, 2)] (["r", "a", "b"])).Nodes.head? = some ("r") ∧
    RootCID (fun s => some (Cid.cid s)) ⟨[(0, 1), (0, 2)], ["r", "a", "b"]⟩ =
      Cid.cid ("r") ∧
    RootCID (fun s => some (Cid.cid s)) ⟨[], []⟩ = Cid.undef := by
  have h := c3_root_first.1 goodSortW goodSortW_spec 10 ngTie ("r")
    ⟨"r", ["a", "b"], 1, none⟩ ⟨[(0, 1), (0, 2)], ["r", "a", "b"]⟩ rfl rfl
  exact ⟨rfl, h.1, h.2 (fun s => some (Cid.cid s)) (Cid.cid ("r")) rfl,
    c3_root_first.2 (fun s => some (Cid.cid s)) ⟨[], []⟩ rfl⟩

/-- The sorting claim for node lists, formalized over the unstable-sort
contract: every admissible weight sort would have to yield a node list
that is non-increasing in recorded weight and lexicographically ascending
on ties. -/
def ClaimC5 : Prop :=
  ∀ (sortW : (String → Nat) → List String → List String), SortSpec sortW →
    ∀ (fuel : Nat) (ng : String → Except String GoNode) (id : String)
      (node : GoNode) (st : Mstate) (w : Nat) (m : Manifest),
      ng id = Except.ok node →
      addNode ng fuel emptyMstate (.node node 0) = .ok st w →
      NewManifest sortW fuel ng id = some (m, none) →
      List.Pairwise
        (fun a b => wtOf st b ≤ wtOf st a ∧ (wtOf st a = wtOf st b → strLe a b))
        m.Nodes

/-- C5 counterexample: an admissible weight sort (descending weight with
descending-identifier tie-break, a legal outcome of Go's unstable
`sort.Sort`) produces `["r", "b", "a"]` on the tie graph, where the two
weight-0 leaves are not in ascending lexicographic order. -/
theorem c5_counterexample : ¬ ClaimC5 := by
  intro h
  have h2 := h badSortW badSortW_spec 10 ngTie ("r") ⟨"r", ["a", "b"], 1, none⟩
    ⟨["r", "a", "b"], [("r", "a"), ("r", "b")],
      [("b", 1), ("a", 1), ("r", 1)], [("r", 2), ("b", 0), ("a", 0)]⟩ 2
    ⟨[(0, 1), (0, 2)], ["r", "b", "a"]⟩ rfl rfl rfl
  have h3 := (List.pairwise_cons.mp (List.pairwise_cons.mp h2).2).1 ("a") (by simp)
  have h4 := h3.2 rfl
  exact absurd h4 (by decide)

/-- C5 (amended): the node list of a successful `NewManifest` run is
ordered by non-increasing recorded weight, for every admissible weight
sort; the equal-weight lexicographic tie-break is not guaranteed by the
unstable sort contract. -/
theorem c5_amended_weight_descending
    (sortW : (String → Nat) → List String → List String) (hS : SortSpec sortW)
    (fuel : Nat) (ng : String → Except String GoNode) (id : String)
    (node : GoNode) (st : Mstate) (w : Nat) (m : Manifest)
    (hng : ng id = Except.ok node)
    (hwalk : addNode ng fuel emptyMstate (.node node 0) = .ok st w)
    (hm : NewManifest sortW fuel ng id = some (m, none)) :
    List.Pairwise (fun a b => wtOf st b ≤ wtOf st a) m.Nodes := by
  simp only [NewManifest, hng] at hm
  rw [hwalk] at hm
  simp only [Option.some.injEq, Prod.mk.injEq] at hm
  obtain ⟨hma, -⟩ := hm
  rw [← hma]
  show List.Pairwise _ (sortW (wtOf st)
    (List.insertionSort strLe st.nodes))
  exact (hS (wtOf st) (List.insertionSort strLe st.nodes)).2

theorem c5_witness :
    List.Pairwise
      (fun a b =>
        wtOf ⟨["r", "a", "b"], [("r", "a"), ("r", "b")],
          [("b", 1), ("a", 1), ("r", 1)], [("r", 2), ("b", 0), ("a", 0)]⟩ b ≤
        wtOf ⟨["r", "a", "b"], [("r", "a"), ("r", "b")],
          [("b", 1), ("a", 1), ("r", 1)], [("r", 2), ("b", 0), ("a", 0)]⟩ a)
      (["r", "a", "b"] : List String) := by
  have h := c5_amended_weight_descending goodSortW goodSortW_spec 10 ngTie ("r")
    ⟨"r", ["a", "b"], 1, none⟩
    ⟨["r", "a", "b"], [("r", "a"), ("r", "b")],
      [("b", 1), ("a", 1), ("r", 1)], [("r", 2), ("b", 0), ("a", 0)]⟩ 2
    ⟨[(0, 1), (0, 2)], ["r", "a", "b"]⟩ rfl rfl rfl
  exact h

/-- A graph whose root fetch succeeds but whose child fetch fails. -/
def ngFail : String → Except String GoNode := fun s =>
  if s = "r" then Except.ok ⟨"r", ["b"], 1, none⟩
  else Except.error ("boom")

/-- The error-propagation claim as stated: an error return would carry no
partial manifest (an empty node list). -/
def ClaimC9 : Prop :=
  ∀ (sortW : (String → Nat) → List String → List String) (fuel : Nat)
    (ng : String → Except String GoNode) (id : String) (m : Manifest) (e : String),
    NewManifest sortW fuel ng id = some (m, some e) → m.Nodes = []

/-- C9 counterexample: when the child fetch fails, `NewManifest` returns
the underlying error together with the partially built manifest — its node
list already holds the root, so a partial manifest is returned. -/
theorem c9_counterexample : ¬ ClaimC9 := by
  intro h
  have h2 := h goodSortW 10 ngFail ("r") ⟨[], ["r"]⟩ ("boom") rfl
  exact absurd h2 (by decide)

/-- C9 (amended): any error coming out of `NewManifest` is an underlying
capability error propagated verbatim — a failed node fetch or a failed
`Size()` call — with no retry; the manifest returned alongside it is the
partially built one, not `nil`. -/
theorem c9_amended_error_propagation
    (sortW : (String → Nat) → List String → List String) (fuel : Nat)
    (ng : String → Except String GoNode) (id : String) (m : Manifest) (e : String)
    (hm : NewManifest sortW fuel ng id = some (m, some e)) : ErrSource ng e := by
  cases hng : ng id with
  | error e2 =>
    simp only [NewManifest, hng, Option.some.injEq, Prod.mk.injEq] at hm
    obtain ⟨-, he⟩ := hm
    exact Or.inl ⟨id, by rw [hng, he]⟩
  | ok node =>
    simp only [NewManifest, hng] at hm
    cases hw : addNode ng fuel emptyMstate (.node node 0) with
    | timeout =>
      rw [hw] at hm
      simp at hm
    | fail e2 st =>
      rw [hw] at hm
      simp only [Option.some.injEq, Prod.mk.injEq] at hm
      obtain ⟨-, he⟩ := hm
      have hi := addNode_inv ng fuel emptyMstate (.node node 0)
      rw [hw] at hi
      rcases hi with hi | hi
      · exact Or.inr ⟨id, node, hng, by rw [hi, he]⟩
      · rw [← he]
        exact hi
    | ok st w =>
      rw [hw] at hm
      simp at hm

theorem c9_witness : ErrSource ngFail ("boom") :=
  c9_amended_error_propagation goodSortW 10 ngFail ("r") ⟨[], ["r"]⟩ ("boom") rfl

/- ### The per-link weight decomposition (claim about `addNode`'s loop) -/

/-- The contribution trace of one run of `addNode`'s link loop, built from
the claim's wording: each link contributes `1` plus — only when the target
had not been visited before that link was processed — the just-computed
subtree weight of the target.  A link whose target was already visited
contributes exactly `1`: a shared target's subtree weight is never added a
second time.  The recursive processing of a fresh target is the embedded
`addNode` itself. -/
inductive ContribList (ng : String → Except String GoNode) (id : String) :
    Mstate → List String → List Nat → Mstate → Prop where
  | nil (st : Mstate) : ContribList ng id st [] [] st
  | visited (st : Mstate) (l : String) (ls : List String) (cs : List Nat)
      (c : GoNode) (st' : Mstate) :
      ng l = Except.ok c →
      (alookup c.cid st.sizes).isSome = true →
      ContribList ng id (addLink st id c.cid) ls cs st' →
      ContribList ng id st (l :: ls) (1 :: cs) st'
  | fresh (st : Mstate) (l : String) (ls : List String) (cs : List Nat)
      (c : GoNode) (st2 : Mstate) (lw : Nat) (st' : Mstate) (f : Nat) :
      ng l = Except.ok c →
      alookup c.cid st.sizes = none →
      addNode ng f (addLink st id c.cid) (.node c 0) = .ok st2 lw →
      alookup c.cid st2.weights = some lw →
      ContribList ng id st2 ls cs st' →
      ContribList ng id st (l :: ls) ((1 + lw) :: cs) st'

theorem addNode_links_trace (ng : String → Except String GoNode) :
    ∀ (fuel : Nat) (st : Mstate) (id : String) (ls : List String) (w : Nat)
      (st' : Mstate) (w' : Nat),
      addNode ng fuel st (.links id ls w) = .ok st' w' →
      ∃ cs, ContribList ng id st ls cs st' ∧ w' = w + cs.sum := by
  intro fuel
  induction fuel with
  | zero =>
    intro st id ls w st' w' h
    exact absurd h (by simp [addNode])
  | succ fuel ih =>
    intro st id ls w st' w' h
    cases ls with
    | nil =>
      rw [addNode] at h
      injection h with h1 h2
      subst h1
      subst h2
      exact ⟨[], ContribList.nil st, by simp⟩
    | cons l ls2 =>
      rw [addNode] at h
      split at h
      · exact absurd h (by simp)
      · rename_i c hng
        split at h
        · exact absurd h (by simp)
        · exact absurd h (by simp)
        · rename_i st2 lw hrec1
          obtain ⟨cs, htr, hsum⟩ := ih st2 id ls2 (w + 1 + lw) st' w' h
          have hi1 := addNode_inv ng fuel (addLink st id c.cid) (.node c 0)
          rw [hrec1] at hi1
          by_cases hc : hasS (addLink st id c.cid) c.cid = true
          · obtain ⟨hst2, hlw⟩ := hi1.1 hc
            subst hlw
            subst hst2
            refine ⟨1 :: cs, ?_, ?_⟩
            · refine ContribList.visited st l ls2 cs c st' hng ?_ htr
              exact hc
            · rw [hsum, List.sum_cons]
              omega
          · rw [Bool.not_eq_true] at hc
            obtain ⟨-, -, hwc, -, -, -, -, -⟩ := hi1.2 hc
            refine ⟨(1 + lw) :: cs, ?_, ?_⟩
            · refine ContribList.fresh st l ls2 cs c st2 lw st' fuel hng ?_ hrec1 hwc htr
              rw [hasS_addLink] at hc
              exact (hasS_false_iff st c.cid).mp hc
            · rw [hsum, List.sum_cons]
              omega

/-- C4: on a first visit that completes successfully (with the
accumulator starting at 0 as at every Go call site), the recorded weight
of the node equals the sum of the per-link contributions: `1` plus the
just-computed subtree weight for a target not yet visited when its link
was processed, and `1` alone for an already-visited target. -/
theorem c4_recorded_weight (ng : String → Except String GoNode) (fuel : Nat)
    (st : Mstate) (n : GoNode) (st' : Mstate) (w' : Nat)
    (hfresh : alookup n.cid st.sizes = none) (hsz : n.sizeErr = none)
    (hw : addNode ng (fuel + 1) st (.node n 0) = .ok st' w') :
    ∃ cs st2, ContribList ng n.cid (enterState st n) n.links cs st2 ∧
      w' = cs.sum ∧ st' = setWeight st2 n.cid w' ∧
      alookup n.cid st'.weights = some w' := by
  rw [addNode] at hw
  split at hw
  · rename_i s hs
    rw [hfresh] at hs
    cases hs
  · split at hw
    · rename_i e hse
      rw [hsz] at hse
      cases hse
    · split at hw
      · exact absurd hw (by simp)
      · exact absurd hw (by simp)
      · rename_i st2 w2 hrec
        injection hw with h1 h2
        obtain ⟨cs, htr, hsum⟩ := addNode_links_trace ng fuel (enterState st n)
          n.cid n.links 0 st2 w2 hrec
        refine ⟨cs, st2, htr, ?_, ?_, ?_⟩
        · omega
        · rw [← h1, ← h2]
        · rw [← h1, ← h2]
          exact alookup_cons_self n.cid w2 st2.weights

/-- A diamond DAG: root "r" links to "a" and "b", both of which link to
the shared leaf "c". -/
def ngDia : String → Except String GoNode := fun s =>
  if s = "r" then Except.ok ⟨"r", ["a", "b"], 1, none⟩
  else if s = "a" then Except.ok ⟨"a", ["c"], 1, none⟩
  else if s = "b" then Except.ok ⟨"b", ["c"], 1, none⟩
  else if s = "c" then Except.ok ⟨"c", [], 1, none⟩
  else Except.error ("not found")

theorem c4_witness :
    ∃ st' w', addNode ngDia 10 emptyMstate (.node ⟨"r", ["a", "b"], 1, none⟩ 0) =
        .ok st' w' ∧
      ∃ cs st2, ContribList ngDia ("r")
          (enterState emptyMstate ⟨"r", ["a", "b"], 1, none⟩) ["a", "b"] cs st2 ∧
        w' = cs.sum ∧ st' = setWeight st2 ("r") w' ∧
        alookup ("r") st'.weights = some w' :=
  ⟨_, _, rfl,
    c4_recorded_weight ngDia 9 emptyMstate ⟨"r", ["a", "b"], 1, none⟩ _ _ rfl rfl rfl⟩

/- ### CBOR serialization of manifests

`Manifest.MarshalCBOR` / `UnmarshalCBORManifest` delegate in Go to the
external `ugorji/go/codec` library.  The encoding modelled here is the
CBOR wire format that library produces for the `Manifest` struct: a
definite-length 2-entry map with the text keys of the struct's json tags,
in declaration order; arrays as definite-length CBOR arrays; integers with
minimal-width heads; strings as UTF-8 text. -/

/-- A CBOR head: major type and argument, with minimal-width argument
encoding (bytes are `Nat`s below 256). -/
def encodeHead (maj n : Nat) : List Nat :=
  if n < 24 then [maj * 32 + n]
  else if n < 256 then [maj * 32 + 24, n]
  else if n < 65536 then [maj * 32 + 25, n / 256, n % 256]
  else if n < 4294967296 then
    [maj * 32 + 26, n / 16777216, n / 65536 % 256, n / 256 % 256, n % 256]
  else
    [maj * 32 + 27, n / 72057594037927936, n / 281474976710656 % 256,
      n / 1099511627776 % 256, n / 4294967296 % 256, n / 16777216 % 256,
      n / 65536 % 256, n / 256 % 256, n % 256]

/-- Read one CBOR head. -/
def readHead : List Nat → Option (Nat × Nat × List Nat)
  | [] => none
  | b :: r =>
    if b % 32 < 24 then some (b / 32, b % 32, r)
    else if b % 32 = 24 then
      match r with
      | x :: r1 => some (b / 32, x, r1)
      | [] => none
    else if b % 32 = 25 then
      match r with
      | x :: y :: r1 => some (b / 32, x * 256 + y, r1)
      | _ => none
    else if b % 32 = 26 then
      match r with
      | x :: y :: z :: u :: r1 => some (b / 32, ((x * 256 + y) * 256 + z) * 256 + u, r1)
      | _ => none
    else if b % 32 = 27 then
      match r with
      | x1 :: x2 :: x3 :: x4 :: x5 :: x6 :: x7 :: x8 :: r1 =>
        some (b / 32,
          ((((((x1 * 256 + x2) * 256 + x3) * 256 + x4) * 256 + x5) * 256 + x6) * 256
              + x7) * 256 + x8, r1)
      | _ => none
    else none

theorem readHead_encodeHead (maj n : Nat) (rest : List Nat)
    (hmaj : maj < 8) (hn : n < 18446744073709551616) :
    readHead (encodeHead maj n ++ rest) = some (maj, n, rest) := by
  unfold encodeHead
  by_cases h1 : n < 24
  · rw [if_pos h1]
    have e1 : (maj * 32 + n) / 32 = maj := by omega
    have e2 : (maj * 32 + n) % 32 = n := by omega
    simp only [List.cons_append, List.nil_append, readHead, e1, e2]
    rw [if_pos h1]
  · rw [if_neg h1]
    by_cases h2 : n < 256
    · rw [if_pos h2]
      have e1 : (maj * 32 + 24) / 32 = maj := by omega
      have e2 : (maj * 32 + 24) % 32 = 24 := by omega
      simp only [List.cons_append, List.nil_append, readHead, e1, e2]
      norm_num
    · rw [if_neg h2]
      by_cases h3 : n < 65536
      · rw [if_pos h3]
        have e1 : (maj * 32 + 25) / 32 = maj := by omega
        have e2 : (maj * 32 + 25) % 32 = 25 := by omega
        simp only [List.cons_append, List.nil_append, readHead, e1, e2]
        have e3 : n / 256 * 256 + n % 256 = n := by omega
        rw [e3]
        norm_num
      · rw [if_neg h3]
        by_cases h4 : n < 4294967296
        · rw [if_pos h4]
          have e1 : (maj * 32 + 26) / 32 = maj := by omega
          have e2 : (maj * 32 + 26) % 32 = 26 := by omega
          simp only [List.cons_append, List.nil_append, readHead, e1, e2]
          have e3 : ((n / 16777216 * 256 + n / 65536 % 256) * 256 + n / 256 % 256) * 256
              + n % 256 = n := by omega
          rw [e3]
          norm_num
        · rw [if_neg h4]
          have e1 : (maj * 32 + 27) / 32 = maj := by omega
          have e2 : (maj * 32 + 27) % 32 = 27 := by omega
          simp only [List.cons_append, List.nil_append, readHead, e1, e2]
          have e3 : ((((((n / 72057594037927936 * 256 + n / 281474976710656 % 256) * 256
              + n / 1099511627776 % 256) * 256 + n / 4294967296 % 256) * 256
              + n / 16777216 % 256) * 256 + n / 65536 % 256) * 256 + n / 256 % 256) * 256
              + n % 256 = n := by omega
          rw [e3]
          norm_num

/-- UTF-8 encoding of one scalar value. -/
def utf8Char (c : Char) : List Nat :=
  if c.toNat < 128 then [c.toNat]
  else if c.toNat < 2048 then [192 + c.toNat / 64, 128 + c.toNat % 64]
  else if c.toNat < 65536 then
    [224 + c.toNat / 4096, 128 + c.toNat / 64 % 64, 128 + c.toNat % 64]
  else
    [240 + c.toNat / 262144, 128 + c.toNat / 4096 % 64, 128 + c.toNat / 64 % 64,
      128 + c.toNat % 64]

def utf8Encode : List Char → List Nat
  | [] => []
  | c :: cs => utf8Char c ++ utf8Encode cs

/-- UTF-8 bytes of a string, as the codec writes them. -/
def utf8Str (s : String) : List Nat := utf8Encode s.data

/-- Decode one UTF-8 scalar value (lenient: continuation bytes are not
re-validated, which is sound for decoding our own encoder's output). -/
def utf8DecodeChar : List Nat → Option (Char × List Nat)
  | [] => none
  | b0 :: r =>
    if b0 < 128 then some (Char.ofNat b0, r)
    else if b0 < 224 then
      match r with
      | b1 :: r1 => some (Char.ofNat ((b0 - 192) * 64 + (b1 - 128)), r1)
      | [] => none
    else if b0 < 240 then
      match r with
      | b1 :: b2 :: r2 =>
        some (Char.ofNat ((b0 - 224) * 4096 + (b1 - 128) * 64 + (b2 - 128)), r2)
      | _ => none
    else
      match r with
      | b1 :: b2 :: b3 :: r3 =>
        some (Char.ofNat ((b0 - 240) * 262144 + (b1 - 128) * 4096 + (b2 - 128) * 64
          + (b3 - 128)), r3)
      | _ => none

def utf8DecodeAll : Nat → List Nat → Option (List Char)
  | _, [] => some []
  | 0, _ :: _ => none
  | fuel + 1, b :: bs =>
    match utf8DecodeChar (b :: bs) with
    | none => none
    | some (c, r) =>
      match utf8DecodeAll fuel r with
      | none => none
      | some cs => some (c :: cs)

theorem char_toNat_lt (c : Char) : c.toNat < 1114112 := by
  rcases c.valid with h | ⟨h1, h2⟩
  · have : c.toNat < 55296 := h
    omega
  · exact h2

theorem utf8DecodeChar_utf8Char (c : Char) (rest : List Nat) :
    utf8DecodeChar (utf8Char c ++ rest) = some (c, rest) := by
  have hub := char_toNat_lt c
  unfold utf8Char
  by_cases h1 : c.toNat < 128
  · rw [if_pos h1]
    simp only [List.cons_append, List.nil_append, utf8DecodeChar]
    rw [if_pos h1, Char.ofNat_toNat]
  · rw [if_neg h1]
    by_cases h2 : c.toNat < 2048
    · rw [if_pos h2]
      simp only [List.cons_append, List.nil_append, utf8DecodeChar]
      rw [if_neg (by omega), if_pos (by omega)]
      have e : (192 + c.toNat / 64 - 192) * 64 + (128 + c.toNat % 64 - 128) = c.toNat := by
        omega
      rw [e, Char.ofNat_toNat]
    · rw [if_neg h2]
      by_cases h3 : c.toNat < 65536
      · rw [if_pos h3]
        simp only [List.cons_append, List.nil_append, utf8DecodeChar]
        rw [if_neg (by omega), if_neg (by omega), if_pos (by omega)]
        have e : (224 + c.toNat / 4096 - 224) * 4096 + (128 + c.toNat / 64 % 64 - 128) * 64
            + (128 + c.toNat % 64 - 128) = c.toNat := by
          omega
        rw [e, Char.ofNat_toNat]
      · rw [if_neg h3]
        simp only [List.cons_append, List.nil_append, utf8DecodeChar]
        rw [if_neg (by omega), if_neg (by omega), if_neg (by omega)]
        have e : (240 + c.toNat / 262144 - 240) * 262144
            + (128 + c.toNat / 4096 % 64 - 128) * 4096
            + (128 + c.toNat / 64 % 64 - 128) * 64 + (128 + c.toNat % 64 - 128)
            = c.toNat := by
          omega
        rw [e, Char.ofNat_toNat]

theorem utf8Char_ne_nil (c : Char) : utf8Char c ≠ [] := by
  unfold utf8Char
  split_ifs <;> simp

theorem utf8DecodeAll_step (fuel : Nat) (bs : List Nat) (h : bs ≠ []) :
    utf8DecodeAll (fuel + 1) bs =
      match utf8DecodeChar bs with
      | none => none
      | some (c, r) =>
        match utf8DecodeAll fuel r with
        | none => none
        | some cs => some (c :: cs) := by
  cases bs with
  | nil => exact absurd rfl h
  | cons b bs2 => rfl

theorem utf8DecodeAll_utf8Encode :
    ∀ (cs : List Char) (fuel : Nat), cs.length ≤ fuel →
      utf8DecodeAll fuel (utf8Encode cs) = some cs := by
  intro cs
  induction cs with
  | nil =>
    intro fuel _
    cases fuel <;> rfl
  | cons c cs2 ih =>
    intro fuel hle
    cases fuel with
    | zero => simp at hle
    | succ f =>
      have hne : utf8Char c ++ utf8Encode cs2 ≠ [] := by
        intro hc
        exact utf8Char_ne_nil c (List.append_eq_nil.mp hc).1
      rw [utf8Encode, utf8DecodeAll_step f _ hne, utf8DecodeChar_utf8Char c _]
      simp [ih f (by simpa using hle)]

theorem length_le_utf8Encode_length :
    ∀ (cs : List Char), cs.length ≤ (utf8Encode cs).length := by
  intro cs
  induction cs with
  | nil => simp [utf8Encode]
  | cons c cs2 ih =>
    rw [utf8Encode, List.length_append, List.length_cons]
    have h1 : 0 < (utf8Char c).length := by
      unfold utf8Char
      split_ifs <;> simp
    omega

/-- A CBOR text string: head with byte length, then UTF-8 bytes. -/
def encodeText (s : String) : List Nat :=
  encodeHead 3 (utf8Str s).length ++ utf8Str s

def readText (bs : List Nat) : Option (String × List Nat) :=
  match readHead bs with
  | none => none
  | some (maj, len, r) =>
    if maj = 3 then
      if len ≤ r.length then
        match utf8DecodeAll len (r.take len) with
        | none => none
        | some cs => some (String.mk cs, r.drop len)
      else none
    else none

theorem readText_encodeText (s : String) (rest : List Nat)
    (hlen : (utf8Str s).length < 18446744073709551616) :
    readText (encodeText s ++ rest) = some (s, rest) := by
  rw [encodeText, List.append_assoc, readText,
    readHead_encodeHead 3 (utf8Str s).length (utf8Str s ++ rest) (by omega) hlen]
  have h1 : (utf8Str s).length ≤ (utf8Str s ++ rest).length := by
    rw [List.length_append]
    omega
  have h2 : (utf8Str s ++ rest).take (utf8Str s).length = utf8Str s :=
    List.take_left _ _
  have h3 : (utf8Str s ++ rest).drop (utf8Str s).length = rest :=
    List.drop_left _ _
  have h4 : utf8DecodeAll (utf8Str s).length (utf8Str s) = some s.data :=
    utf8DecodeAll_utf8Encode s.data (utf8Str s).length
      (length_le_utf8Encode_length s.data)
  simp only [if_pos rfl, if_pos h1, h2, h3, h4]
  have h5 : String.mk s.data = s := by
    cases s
    rfl
  simp [h5]

/-- A CBOR integer as the codec writes a Go `int`: major 0 for `v ≥ 0`
(value `v`), major 1 for `v < 0` (value `-1 - v`). -/
def encodeInt (v : Int) : List Nat :=
  if 0 ≤ v then encodeHead 0 v.toNat else encodeHead 1 (-1 - v).toNat

def readInt (bs : List Nat) : Option (Int × List Nat) :=
  match readHead bs with
  | none => none
  | some (maj, n, r) =>
    if maj = 0 then some ((n : Int), r)
    else if maj = 1 then some (-1 - (n : Int), r)
    else none

theorem readInt_encodeInt (v : Int) (rest : List Nat)
    (hlo : -18446744073709551616 ≤ v) (hhi : v < 18446744073709551616) :
    readInt (encodeInt v ++ rest) = some (v, rest) := by
  rw [encodeInt]
  by_cases h : 0 ≤ v
  · rw [if_pos h]
    have hb : v.toNat < 18446744073709551616 := by omega
    rw [readInt, readHead_encodeHead 0 v.toNat rest (by omega) hb]
    have he : ((v.toNat : Int)) = v := Int.toNat_of_nonneg h
    simp [he]
  · rw [if_neg h]
    have hb : (-1 - v).toNat < 18446744073709551616 := by omega
    rw [readInt, readHead_encodeHead 1 (-1 - v).toNat rest (by omega) hb]
    have he : (((-1 - v).toNat : Int)) = -1 - v := Int.toNat_of_nonneg (by omega)
    have he2 : -1 - ((-1 - v).toNat : Int) = v := by
      rw [he]
      omega
    simp
    omega

/-- One `[2]int` link: a 2-element CBOR array of two integers. -/
def encodeLink (p : Int × Int) : List Nat :=
  encodeHead 4 2 ++ encodeInt p.1 ++ encodeInt p.2

def readLink (bs : List Nat) : Option ((Int × Int) × List Nat) :=
  match readHead bs with
  | none => none
  | some (maj, cnt, r) =>
    if maj = 4 then
      if cnt = 2 then
        match readInt r with
        | none => none
        | some (a, r1) =>
          match readInt r1 with
          | none => none
          | some (b, r2) => some ((a, b), r2)
      else none
    else none

theorem readLink_encodeLink (p : Int × Int) (rest : List Nat)
    (h1lo : -18446744073709551616 ≤ p.1) (h1hi : p.1 < 18446744073709551616)
    (h2lo : -18446744073709551616 ≤ p.2) (h2hi : p.2 < 18446744073709551616) :
    readLink (encodeLink p ++ rest) = some (p, rest) := by
  rw [encodeLink, List.append_assoc, List.append_assoc, readLink,
    readHead_encodeHead 4 2 (encodeInt p.1 ++ (encodeInt p.2 ++ rest)) (by omega) (by omega)]
  simp [readInt_encodeInt p.1 (encodeInt p.2 ++ rest) h1lo h1hi,
    readInt_encodeInt p.2 rest h2lo h2hi]

/-- Concatenated encodings of list elements. -/
def encodeSeq {α : Type} (enc : α → List Nat) : List α → List Nat
  | [] => []
  | x :: xs => enc x ++ encodeSeq enc xs

/-- Read a fixed number of consecutively encoded elements. -/
def readMany {α : Type} (p : List Nat → Option (α × List Nat)) :
    Nat → List Nat → Option (List α × List Nat)
  | 0, bs => some ([], bs)
  | k + 1, bs =>
    match p bs with
    | none => none
    | some (a, r) =>
      match readMany p k r with
      | none => none
      | some (as, r1) => some (a :: as, r1)

theorem readMany_encodeSeq {α : Type} (p : List Nat → Option (α × List Nat))
    (enc : α → List Nat) :
    ∀ (xs : List α) (rest : List Nat),
      (∀ x ∈ xs, ∀ r, p (enc x ++ r) = some (x, r)) →
      readMany p xs.length (encodeSeq enc xs ++ rest) = some (xs, rest) := by
  intro xs
  induction xs with
  | nil =>
    intro rest _
    rfl
  | cons x xs2 ih =>
    intro rest hall
    rw [List.length_cons, encodeSeq, List.append_assoc, readMany,
      hall x (List.mem_cons_self x xs2) (encodeSeq enc xs2 ++ rest)]
    simp [ih rest (fun y hy r => hall y (List.mem_cons_of_mem x hy) r)]

/-- `Manifest.MarshalCBOR`, modelled after the bytes the ugorji codec
writes for the struct: `map(2) { text("links"): [[int,int],...],
text("nodes"): [text,...] }` with fields in declaration order. -/
def MarshalCBOR (m : Manifest) : List Nat :=
  encodeHead 5 2 ++
    encodeText ("links") ++
    encodeHead 4 m.Links.length ++ encodeSeq encodeLink m.Links ++
    encodeText ("nodes") ++
    encodeHead 4 m.Nodes.length ++ encodeSeq encodeText m.Nodes

/-- `UnmarshalCBORManifest`, the matching decoder. -/
def UnmarshalCBORManifest (bs : List Nat) : Option Manifest :=
  (readHead bs).bind (fun h1 =>
    if h1.1 = 5 ∧ h1.2.1 = 2 then
      (readText h1.2.2).bind (fun t1 =>
        if t1.1 = "links" then
          (readHead t1.2).bind (fun h2 =>
            if h2.1 = 4 then
              (readMany readLink h2.2.1 h2.2.2).bind (fun ls =>
                (readText ls.2).bind (fun t2 =>
                  if t2.1 = "nodes" then
                    (readHead t2.2).bind (fun h3 =>
                      if h3.1 = 4 then
                        (readMany readText h3.2.1 h3.2.2).bind (fun ns =>
                          some ⟨ls.1, ns.1⟩)
                      else none)
                  else none))
            else none)
        else none)
    else none)

/-- Valid-manifest bounds for the byte-level encoding: every Go value
satisfies them (lengths below 2^63, `int` values within 64 bits). -/
def CborSafe (m : Manifest) : Prop :=
  m.Links.length < 18446744073709551616 ∧
  m.Nodes.length < 18446744073709551616 ∧
  (∀ p ∈ m.Links,
    -18446744073709551616 ≤ p.1 ∧ p.1 < 18446744073709551616 ∧
    -18446744073709551616 ≤ p.2 ∧ p.2 < 18446744073709551616) ∧
  (∀ s ∈ m.Nodes, (utf8Str s).length < 18446744073709551616)

instance (m : Manifest) : Decidable (CborSafe m) := by
  unfold CborSafe
  infer_instance

/-- C6: decoding the CBOR encoding of a manifest returns the manifest
itself, for every manifest within the 64-bit bounds any Go value obeys —
including the empty manifest. -/
theorem c6_cbor_roundtrip (m : Manifest) (h : CborSafe m) :
    UnmarshalCBORManifest (MarshalCBOR m) = some m := by
  obtain ⟨hl, hn, hlink, hnode⟩ := h
  rw [MarshalCBOR]
  simp only [List.append_assoc, UnmarshalCBORManifest]
  rw [readHead_encodeHead 5 2 _ (by omega) (by omega)]
  simp only [Option.some_bind]
  norm_num
  rw [readText_encodeText ("links") _ (by decide)]
  simp only [Option.some_bind]
  norm_num
  rw [readHead_encodeHead 4 m.Links.length _ (by omega) hl]
  simp only [Option.some_bind]
  norm_num
  rw [readMany_encodeSeq readLink encodeLink m.Links _
    (fun p hp r => readLink_encodeLink p r (hlink p hp).1 (hlink p hp).2.1
      (hlink p hp).2.2.1 (hlink p hp).2.2.2)]
  simp only [Option.some_bind]
  rw [readText_encodeText ("nodes") _ (by decide)]
  simp only [Option.some_bind]
  norm_num
  rw [readHead_encodeHead 4 m.Nodes.length _ (by omega) hn]
  simp only [Option.some_bind]
  norm_num
  have hlast := readMany_encodeSeq readText encodeText m.Nodes []
    (fun x hx r => readText_encodeText x r (hnode x hx))
  rw [List.append_nil] at hlast
  rw [hlast]
  simp only [Option.some_bind]

theorem c6_witness :
    UnmarshalCBORManifest (MarshalCBOR ⟨[(0, 1)], ["a", "b"]⟩) =
      some ⟨[(0, 1)], ["a", "b"]⟩ ∧
    UnmarshalCBORManifest (MarshalCBOR ⟨[], []⟩) = some ⟨[], []⟩ :=
  ⟨c6_cbor_roundtrip ⟨[(0, 1)], ["a", "b"]⟩ (by decide),
    c6_cbor_roundtrip ⟨[], []⟩ (by decide)⟩
